import Mathlib

/-!
Verification of the knowledge-graph construction repository
(`app/components/extractor.py`, `app/components/store_neo4j.py`).

The Python data model (pydantic `Entity`, `Relationship`, `KnowledgeGraph`)
is embedded shallowly.  Python `dict`s preserve insertion order, so a
`Dict[str, Any]` is modelled as an association list `List (String × α)`
with first-match lookup; `dict.update` keeps the position of existing keys
and appends new keys in order.  Property values (`Any`) are a type
parameter `α`.
-/

/-- Entity model (`extractor.py`, class `Entity`): name, type/category and a
property bag. -/
structure Entity (α : Type) where
  name : String
  type : String
  properties : List (String × α)
deriving Repr, DecidableEq

/-- Relationship model (`extractor.py`, class `Relationship`). -/
structure Relationship (α : Type) where
  source : String
  target : String
  type : String
  properties : List (String × α)
deriving Repr, DecidableEq

/-- Knowledge-graph model (`extractor.py`, class `KnowledgeGraph`). -/
structure KnowledgeGraph (α : Type) where
  entities : List (Entity α)
  relationships : List (Relationship α)
deriving Repr, DecidableEq

/-- Python `d.update(u)` on insertion-ordered dicts: keys already in `d`
keep their position and receive the value from `u` when present; keys of
`u` not in `d` are appended in `u`'s order. -/
def dictUpdate (d u : List (String × α)) : List (String × α) :=
  d.map (fun kv => (kv.1, ((u.lookup kv.1).getD kv.2)))
    ++ u.filter (fun kv => (d.lookup kv.1).isNone)

/-- Lookup of a key in the properties of an optionally found entity. -/
def entryLookup (k : String) (o : Option (Entity α)) : Option α :=
  o.bind (fun a => a.properties.lookup k)

/-- The `(source, target, type)` key used by `merge_knowledge_graphs` to
deduplicate relationships. -/
def relKey (r : Relationship α) : String × String × String :=
  (r.source, r.target, r.type)

/-- One step of the entity loop of `merge_knowledge_graphs`
(`extractor.py` lines 181-189).  The Python code keeps `entity_map` and
`all_entities` pointing at the same objects, so the pure translation keeps
a single ordered list: on a name collision the stored entity's properties
are updated (`existing.properties.update(entity.properties)`), otherwise
the entity is appended.  `entUpd e` is the in-place update applied to the
entity whose name collides with `e`. -/
def entUpd (e a : Entity α) : Entity α :=
  if a.name == e.name then
    { a with properties := dictUpdate a.properties e.properties }
  else a

def entStep (acc : List (Entity α)) (e : Entity α) : List (Entity α) :=
  if acc.any (fun x => x.name == e.name) then acc.map (entUpd e)
  else acc ++ [e]

/-- One step of the relationship-deduplication loop of
`merge_knowledge_graphs` (`extractor.py` lines 193-200).  The state is the
`seen` set of keys and the `unique_relationships` output list. -/
def relStep (st : Finset (String × String × String) × List (Relationship α))
    (r : Relationship α) :
    Finset (String × String × String) × List (Relationship α) :=
  if relKey r ∈ st.1 then st else (insert (relKey r) st.1, st.2 ++ [r])

/-- Relationship deduplication of `merge_knowledge_graphs`: first
occurrence of each `(source, target, type)` key wins. -/
def dedupRelationships (rels : List (Relationship α)) : List (Relationship α) :=
  (rels.foldl relStep (∅, [])).2

/-- The function `merge_knowledge_graphs` (`extractor.py` lines 167-202),
as the pure function from input graphs to the returned graph. -/
def mergeKnowledgeGraphs (graphs : List (KnowledgeGraph α)) : KnowledgeGraph α :=
  let allEntities := graphs.foldl (fun acc g => g.entities.foldl entStep acc) []
  let allRelationships := graphs.foldl (fun acc g => acc ++ g.relationships) []
  ⟨allEntities, dedupRelationships allRelationships⟩

/-- All entities of a fragment sequence, in fragment order. -/
def joinEntities (graphs : List (KnowledgeGraph α)) : List (Entity α) :=
  (graphs.map (·.entities)).flatten

/-- All relationships of a fragment sequence, in fragment order. -/
def joinRelationships (graphs : List (KnowledgeGraph α)) : List (Relationship α) :=
  (graphs.map (·.relationships)).flatten

/-- Append an element unless it is already present. -/
def fsdStep [DecidableEq β] (acc : List β) (x : β) : List β :=
  if x ∈ acc then acc else acc ++ [x]

/-- Keep the first occurrence of every element, in first-seen order (the
spec's description of the deduplicated key sequence). -/
def firstSeenDedup [DecidableEq β] (xs : List β) : List β :=
  xs.foldl fsdStep []

/-!
Model of `LLMExtractor.extract` (`extractor.py` lines 117-152).

The language-model call itself and `json.loads` are external capabilities:
the call outcome is an `Option String` (`none` = the call raised) and the
JSON parser is a parameter `jsonLoads : String → Option Json`
(`none` = `json.loads` raised `JSONDecodeError`).  Everything after those
two points is repository code and is modelled concretely, including the
markdown-fence regex and the pydantic shape validation.  Every raised
exception is caught by the single `try/except` of `extract`, which returns
the empty graph.
-/

/-- JSON values, the shape `json.loads` produces. -/
inductive Json where
  | null
  | bool (b : Bool)
  | num (q : ℚ)
  | str (s : String)
  | arr (elems : List Json)
  | obj (fields : List (String × Json))

/-- Python Unicode whitespace (`Py_UNICODE_ISSPACE`): U+0009..U+000D,
U+001C..U+001F, space, NEL, NBSP, U+1680, U+2000..U+200A, U+2028, U+2029,
U+202F, U+205F, U+3000.  This is the set removed by `str.strip()` and
matched by the regex class `\s` on `str` patterns. -/
def isPyWs (c : Char) : Bool :=
  ('\x09' ≤ c && c ≤ '\x0d') || ('\x1c' ≤ c && c ≤ '\x1f') || c = ' '
    || c = '\x85' || c = '\xa0' || c = '\u1680'
    || ('\u2000' ≤ c && c ≤ '\u200a')
    || c = '\u2028' || c = '\u2029' || c = '\u202f' || c = '\u205f' || c = '\u3000'

/-- Python `str.strip()`: remove leading and trailing Unicode whitespace. -/
def pyStrip (s : String) : String :=
  String.mk (((s.toList.dropWhile isPyWs).reverse.dropWhile isPyWs).reverse)

/-- Whether `cs`, after greedily skipping whitespace, continues with the
closing triple backtick of the fence regex. -/
def closesFence (cs : List Char) : Bool :=
  "```".toList.isPrefixOf (cs.dropWhile isPyWs)

/-- Largest index `k` with `r2[k] = close brace` whose suffix matches the
rest of the fence regex: the greedy capture group ends there. -/
def lastCloseIdx (r2 : List Char) : Option Nat :=
  (List.range r2.length).reverse.find? (fun k =>
    r2[k]? == some '}' && closesFence (r2.drop (k + 1)))

/-- Attempt the fence regex of `extract` at the start of `cs`, returning
the captured JSON body.  Mirrors the Python regex with `re.DOTALL`: a
triple backtick, an optional `json` tag (tried first, as the regex engine
does), greedy whitespace, a greedy brace-delimited body, whitespace, and a
closing triple backtick. -/
def fenceMatchAt (cs : List Char) : Option (List Char) :=
  if "```".toList.isPrefixOf cs then
    let rest := cs.drop 3
    let tryBody := fun (r : List Char) =>
      let r2 := r.dropWhile isPyWs
      if r2[0]? == some '{' then
        match lastCloseIdx r2 with
        | some k => some (r2.take (k + 1))
        | none => none
      else none
    match (if "json".toList.isPrefixOf rest then tryBody (rest.drop 4) else none) with
    | some g => some g
    | none => tryBody rest
  else none

/-- Leftmost match of the fence regex (`re.search` semantics). -/
def searchFence : List Char → Option (List Char)
  | [] => none
  | c :: rest =>
    match fenceMatchAt (c :: rest) with
    | some g => some g
    | none => searchFence rest

/-- The fence-stripping step of `extract` (`extractor.py` lines 136-138):
if the regex matches, the content is replaced by the captured group. -/
def stripFence (s : String) : String :=
  match searchFence s.toList with
  | some g => String.mk g
  | none => s

/-- Pydantic validation `Entity(**e)`: `e` must be a JSON object whose
`name` and `type` are strings; `properties` is optional with default `{}`
and must be an object when present.  Any other shape raises a validation
error, modelled as `none`. -/
def entityOfJson : Json → Option (Entity Json)
  | .obj kvs =>
    match kvs.lookup "name", kvs.lookup "type" with
    | some (.str n), some (.str t) =>
      match kvs.lookup "properties" with
      | none => some ⟨n, t, []⟩
      | some (.obj ps) => some ⟨n, t, ps⟩
      | some _ => none
    | _, _ => none
  | _ => none

/-- Pydantic validation `Relationship(**r)`, analogous to `entityOfJson`. -/
def relationshipOfJson : Json → Option (Relationship Json)
  | .obj kvs =>
    match kvs.lookup "source", kvs.lookup "target", kvs.lookup "type" with
    | some (.str s), some (.str t), some (.str ty) =>
      match kvs.lookup "properties" with
      | none => some ⟨s, t, ty, []⟩
      | some (.obj ps) => some ⟨s, t, ty, ps⟩
      | some _ => none
    | _, _, _ => none
  | _ => none

/-- Python `data.get(key, [])` followed by iteration in the list
comprehension.  A missing key gives the empty list; a list yields its
items; a string yields its characters as one-character strings (iterating
`""` yields nothing; each character then fails `Entity(**e)`); a dict
yields its keys, which are strings (iterating `{}` yields nothing); any
other value (`None`, a number, a boolean) is not iterable, so the
comprehension itself raises `TypeError`, modelled as `none`. -/
def getListField (kvs : List (String × Json)) (k : String) : Option (List Json) :=
  match kvs.lookup k with
  | none => some []
  | some (.arr xs) => some xs
  | some (.str s) => some (s.toList.map (fun c => Json.str (String.mk [c])))
  | some (.obj fields) => some (fields.map (fun kv => Json.str kv.1))
  | some _ => none

/-- A list comprehension building one value per element: the first element
that raises (`none`) aborts the whole comprehension. -/
def mapOption (f : β → Option γ) : List β → Option (List γ)
  | [] => some []
  | a :: tl =>
    match f a, mapOption f tl with
    | some b, some bs => some (b :: bs)
    | _, _ => none

/-- Lines 144-147 of `extractor.py`: build the `KnowledgeGraph` from the
parsed JSON. A non-object `data` makes `data.get` raise; any single
entity or relationship failing validation raises, aborting the whole
construction (`none`). -/
def buildKG : Json → Option (KnowledgeGraph Json)
  | .obj kvs =>
    match getListField kvs "entities" with
    | none => none
    | some es =>
      match mapOption entityOfJson es with
      | none => none
      | some ents =>
        match getListField kvs "relationships" with
        | none => none
        | some rs =>
          match mapOption relationshipOfJson rs with
          | none => none
          | some rels => some ⟨ents, rels⟩
  | _ => none

/-- The empty fragment returned by the `except` branch of `extract`. -/
def emptyKG : KnowledgeGraph Json := ⟨[], []⟩

example : pyStrip "\x0c {} \u00a0" = "{}" := by decide

example :
    buildKG (Json.obj [("entities", Json.str ""),
        ("relationships", Json.arr [Json.obj [("source", Json.str "A"),
          ("target", Json.str "B"), ("type", Json.str "rel")]])])
      = some ⟨[], [⟨"A", "B", "rel", []⟩]⟩ := rfl

example : buildKG (Json.obj [("entities", Json.obj [])]) = some ⟨[], []⟩ := rfl

example : buildKG (Json.obj [("entities", Json.str "ab")]) = none := rfl

example : buildKG (Json.obj [("entities", Json.num 3)]) = none := rfl

/-- The function `LLMExtractor.extract` as a function of the outcome of the
language-model call (`none` = the call raised) and of the external JSON
parser.  Any failure in the pipeline lands in the `except Exception`
branch, which returns the empty graph. -/
def extractResult (llmOutcome : Option String)
    (jsonLoads : String → Option Json) : KnowledgeGraph Json :=
  match llmOutcome with
  | none => emptyKG
  | some raw =>
    match jsonLoads (stripFence (pyStrip raw)) with
    | none => emptyKG
    | some data => (buildKG data).getD emptyKG

/-!
Model of `Neo4jStorage` (`store_neo4j.py`).  The database state is a list
of nodes (a node's identity is its index) and a list of edges between node
indices.  The two fixed Cypher queries of `create_entity` and
`create_relationship` are translated to their documented semantics:
`MERGE` matches every existing occurrence of its pattern and otherwise
creates one; `SET x += m` updates the matched element's property map
key-wise; `MATCH` produces one result row per combination of matching
nodes, and a query whose `MATCH` finds no row does nothing.
-/

/-- A stored node: Neo4j label, the `name` key property, and the remaining
properties. -/
structure N4Node (α : Type) where
  label : String
  name : String
  properties : List (String × α)
deriving Repr, DecidableEq

/-- A stored edge between node indices. -/
structure N4Edge (α : Type) where
  src : Nat
  tgt : Nat
  type : String
  properties : List (String × α)
deriving Repr, DecidableEq

/-- The database state. -/
structure N4Graph (α : Type) where
  nodes : List (N4Node α)
  edges : List (N4Edge α)
deriving Repr, DecidableEq

/-- Line 107 of `store_neo4j.py`:
`relationship_type.upper().replace(" ", "_").replace("-", "_")`.
`Char.toUpper` maps only ASCII, while Python's `str.upper()` is Unicode;
no theorem below depends on the sanitized string. -/
def sanitizeRelType (s : String) : String :=
  ((s.map Char.toUpper).replace " " "_").replace "-" "_"

/-- `Neo4jStorage.create_entity` (without the embedding plumbing):
`MERGE (e:type {name: $name}) SET e += $properties`. -/
def createEntity (g : N4Graph α) (name entityType : String)
    (properties : List (String × α)) : N4Graph α :=
  if g.nodes.any (fun n => n.label == entityType && n.name == name) then
    { g with nodes := g.nodes.map (fun n =>
        if n.label == entityType && n.name == name then
          { n with properties := dictUpdate n.properties properties }
        else n) }
  else
    { g with nodes := g.nodes ++ [⟨entityType, name, properties⟩] }

/-- The result rows of `MATCH (s {name: $source_name}) MATCH (t {name:
$target_name})`: every pair of node indices whose names match.  No label
restriction appears in the query. -/
def matchRows (g : N4Graph α) (sourceName targetName : String) : List (Nat × Nat) :=
  ((List.range g.nodes.length).filter
      (fun i => (g.nodes[i]?.map (·.name)) == some sourceName)).flatMap
    (fun i => ((List.range g.nodes.length).filter
      (fun j => (g.nodes[j]?.map (·.name)) == some targetName)).map (fun j => (i, j)))

/-- Per-row `MERGE (s)-[r:TYPE]->(t) SET r += $properties`: update every
existing edge of that shape, otherwise create one. -/
def mergeEdgeStep (rt : String) (properties : List (String × α))
    (es : List (N4Edge α)) (row : Nat × Nat) : List (N4Edge α) :=
  if es.any (fun e => e.src == row.1 && e.tgt == row.2 && e.type == rt) then
    es.map (fun e =>
      if e.src == row.1 && e.tgt == row.2 && e.type == rt then
        { e with properties := dictUpdate e.properties properties }
      else e)
  else es ++ [⟨row.1, row.2, rt, properties⟩]

/-- `Neo4jStorage.create_relationship` (`store_neo4j.py` lines 87-119):
both endpoints are looked up with `MATCH`, so when either name is absent
the query has no rows and nothing is written. -/
def createRelationship (g : N4Graph α) (sourceName targetName relationshipType : String)
    (properties : List (String × α)) : N4Graph α :=
  let rt := sanitizeRelType relationshipType
  let newEdges :=
    (matchRows g sourceName targetName).foldl (mergeEdgeStep rt properties) g.edges
  { g with edges := newEdges }

/-!
Model of `Neo4jStorage.find_similar_entities` (`store_neo4j.py` lines
241-287).  The Cypher query returns the `(name, embedding)` rows of the
entities that carry an embedding, in retrieval order, truncated by
`LIMIT $limit` with the parameter set to `limit * 2`; those rows are the
`rows` input below.  Vector arithmetic (`numpy`) is over the reals.
Python's `list.sort` is stable, so sorting by descending similarity is
modelled as sorting index-tagged scores by the total order `simRel`
(similarity descending, retrieval position ascending on ties).
-/

/-- Sum of squares of the components, the square of `np.linalg.norm`. -/
def sumSq (v : List ℝ) : ℝ := (v.map (fun x => x * x)).sum

/-- The euclidean norm `np.linalg.norm`. -/
noncomputable def vnorm (v : List ℝ) : ℝ := Real.sqrt (sumSq v)

/-- The dot product `np.dot` on equal-length vectors. -/
def dotp (a b : List ℝ) : ℝ := (List.zipWith (· * ·) a b).sum

/-- Cosine similarity as computed on line 279 of `store_neo4j.py`. -/
noncomputable def cosineSim (q e : List ℝ) : ℝ := dotp q e / (vnorm q * vnorm e)

/-- The body of the scoring loop (lines 272-283) for one retrieved row:
skip an empty embedding (`if entity_embedding:`), guard on both norms
being positive, and keep the score only when it reaches the threshold. -/
noncomputable def scoreRow (q : List ℝ) (threshold : ℝ) (row : String × List ℝ) :
    Option (String × ℝ) :=
  if row.2 = [] then none
  else if 0 < vnorm q ∧ 0 < vnorm row.2 then
    if threshold ≤ cosineSim q row.2 then some (row.1, cosineSim q row.2) else none
  else none

/-- Descending similarity, ties by ascending retrieval position: the total
order realised by Python's stable `sort(key=..., reverse=True)` on
position-tagged scores. -/
def simRel (a b : Nat × String × ℝ) : Prop :=
  b.2.2 < a.2.2 ∨ (a.2.2 = b.2.2 ∧ a.1 ≤ b.1)

noncomputable instance : DecidableRel simRel := fun _ _ => instDecidableOr

instance : IsTotal (Nat × String × ℝ) simRel where
  total a b := by
    rcases lt_trichotomy a.2.2 b.2.2 with h | h | h
    · exact Or.inr (Or.inl h)
    · rcases Nat.le_total a.1 b.1 with h' | h'
      · exact Or.inl (Or.inr ⟨h, h'⟩)
      · exact Or.inr (Or.inr ⟨h.symm, h'⟩)
    · exact Or.inl (Or.inl h)

instance : IsTrans (Nat × String × ℝ) simRel where
  trans a b c hab hbc := by
    rcases hab with h1 | ⟨h1, h1'⟩ <;> rcases hbc with h2 | ⟨h2, h2'⟩
    · exact Or.inl (h2.trans h1)
    · exact Or.inl (h2 ▸ h1)
    · exact Or.inl (h1 ▸ h2)
    · exact Or.inr ⟨h1.trans h2, h1'.trans h2'⟩

/-- The scored candidates of `find_similar_entities`, tagged with their
position in `similar_entities` and sorted. -/
noncomputable def sortedTagged (rows : List (String × List ℝ)) (q : List ℝ)
    (limit : Nat) (threshold : ℝ) : List (Nat × String × ℝ) :=
  List.insertionSort simRel
    (((rows.take (limit * 2)).filterMap (scoreRow q threshold)).enum)

/-- `Neo4jStorage.find_similar_entities` as a function of the retrieved
rows: score the first `limit * 2` rows, sort by descending similarity
(stable), and return the first `limit` of them as `(name, similarity)`. -/
noncomputable def findSimilarEntities (rows : List (String × List ℝ)) (q : List ℝ)
    (limit : Nat) (threshold : ℝ) : List (String × ℝ) :=
  ((sortedTagged rows q limit threshold).take limit).map (·.2)

/-!
Heap model of `merge_knowledge_graphs`, used for the frame property.  The
Python function receives entity *objects*; the pure model above computes
the returned value, while this model additionally tracks the object heap
to make mutation observable.  Fragments hold references (heap indices)
to their entity objects.  Relationship objects are never written by the
function, so they are kept by value.  The `updated` component is ghost
instrumentation recording which heap slots the loop writes.
-/

/-- An entity object on the heap. -/
structure HEntity (α : Type) where
  name : String
  type : String
  properties : List (String × α)
deriving Repr, DecidableEq

/-- A fragment holding references to its entity objects. -/
structure HFragment (α : Type) where
  entityRefs : List Nat
  relationships : List (Relationship α)
deriving Repr, DecidableEq

/-- State of the entity loop of `merge_knowledge_graphs` over the heap:
the heap, `entity_map` (name to reference), `all_entities` (references),
and the ghost list of written slots. -/
structure MergeState (α : Type) where
  heap : List (HEntity α)
  entityMap : List (String × Nat)
  allEntities : List Nat
  updated : List Nat
deriving Repr, DecidableEq

/-- One iteration of the entity loop over the heap: on a name collision
`existing.properties.update(entity.properties)` writes the first-seen
object in place; otherwise the reference is recorded. -/
def hentStep (st : MergeState α) (eid : Nat) : MergeState α :=
  let e := st.heap.getD eid ⟨"", "", []⟩
  match st.entityMap.lookup e.name with
  | some exId =>
    { st with
      heap := st.heap.modify
        (fun x => { x with properties := dictUpdate x.properties e.properties }) exId,
      updated := st.updated ++ [exId] }
  | none =>
    { st with
      entityMap := st.entityMap ++ [(e.name, eid)],
      allEntities := st.allEntities ++ [eid] }

/-- `merge_knowledge_graphs` over the heap: the final loop state (whose
`heap` is the post-call state of the input objects) and the returned
relationship list. -/
def mergeHeap (heap : List (HEntity α)) (frags : List (HFragment α)) :
    MergeState α × List (Relationship α) :=
  let st := frags.foldl (fun s f => f.entityRefs.foldl hentStep s) ⟨heap, [], [], []⟩
  (st, dedupRelationships (frags.foldl (fun acc f => acc ++ f.relationships) []))

example :
    mergeKnowledgeGraphs (α := String)
      [⟨[⟨"AI", "Concept", []⟩], []⟩, ⟨[⟨"AI", "Topic", [("lang", "en")]⟩], []⟩]
      = ⟨[⟨"AI", "Concept", [("lang", "en")]⟩], []⟩ := by decide

example :
    mergeKnowledgeGraphs (α := Nat)
      [⟨[], [⟨"A", "B", "rel", []⟩, ⟨"A", "B", "rel", [("w", 5)]⟩]⟩]
      = ⟨[], [⟨"A", "B", "rel", []⟩]⟩ := by decide

/-! ### Association-list lemmas for `dictUpdate` -/

theorem fsdStep_pos [DecidableEq β] {acc : List β} {x : β} (h : x ∈ acc) :
    fsdStep acc x = acc := by
  unfold fsdStep; rw [if_pos h]

theorem fsdStep_neg [DecidableEq β] {acc : List β} {x : β} (h : x ∉ acc) :
    fsdStep acc x = acc ++ [x] := by
  unfold fsdStep; rw [if_neg h]

theorem kg_lookup_append (k : String) (l₁ l₂ : List (String × α)) :
    (l₁ ++ l₂).lookup k = ((l₁.lookup k).or (l₂.lookup k)) := by
  induction l₁ with
  | nil => simp
  | cons kv tl ih =>
    obtain ⟨k1, v1⟩ := kv
    cases h : k == k1 <;> simp [List.lookup_cons, h, ih]

theorem kg_lookup_map_value (k : String) (d : List (String × α)) (h : String → α → β) :
    (d.map (fun kv => (kv.1, h kv.1 kv.2))).lookup k = (d.lookup k).map (h k) := by
  induction d with
  | nil => simp
  | cons kv tl ih =>
    obtain ⟨k1, v1⟩ := kv
    cases hk : k == k1
    · simp [List.lookup_cons, hk, ih]
    · have : k = k1 := by simpa using hk
      subst this
      simp [List.lookup_cons]

theorem kg_lookup_filter_none (k : String) (u d : List (String × α))
    (hd : d.lookup k = none) :
    (u.filter (fun kv => (d.lookup kv.1).isNone)).lookup k = u.lookup k := by
  induction u with
  | nil => simp
  | cons kv tl ih =>
    obtain ⟨k2, v2⟩ := kv
    cases hk : k == k2
    · by_cases hp : (d.lookup k2).isNone = true
      · simp [List.filter_cons, hp, List.lookup_cons, hk, ih]
      · simp [List.filter_cons, hp, List.lookup_cons, hk, ih]
    · have : k = k2 := by simpa using hk
      subst this
      simp [List.filter_cons, hd, List.lookup_cons]

theorem kg_lookup_filter_some (k : String) (u d : List (String × α)) (v : α)
    (hd : d.lookup k = some v) :
    (u.filter (fun kv => (d.lookup kv.1).isNone)).lookup k = none := by
  induction u with
  | nil => simp
  | cons kv tl ih =>
    obtain ⟨k2, v2⟩ := kv
    cases hk : k == k2
    · by_cases hp : (d.lookup k2).isNone = true
      · simp [List.filter_cons, hp, List.lookup_cons, hk, ih]
      · simp [List.filter_cons, hp, List.lookup_cons, hk, ih]
    · have : k = k2 := by simpa using hk
      subst this
      simp [List.filter_cons, hd, List.lookup_cons, ih]

/-- Key-wise effect of `dict.update`: the updating dict wins, the updated
dict is the fallback. -/
theorem dictUpdate_lookup (k : String) (d u : List (String × α)) :
    (dictUpdate d u).lookup k = ((u.lookup k).or (d.lookup k)) := by
  unfold dictUpdate
  rw [kg_lookup_append]
  rw [kg_lookup_map_value k d (fun key v => (u.lookup key).getD v)]
  cases hd : d.lookup k with
  | none =>
    rw [kg_lookup_filter_none k u d hd]
    cases hu : u.lookup k <;> simp
  | some v =>
    rw [kg_lookup_filter_some k u d v hd]
    cases hu : u.lookup k <;> simp [Option.getD]

/-! ### Lemmas about the entity loop of `merge_knowledge_graphs` -/

theorem entUpd_name (e a : Entity α) : (entUpd e a).name = a.name := by
  unfold entUpd; split <;> rfl

theorem entUpd_type (e a : Entity α) : (entUpd e a).type = a.type := by
  unfold entUpd; split <;> rfl

theorem entUpd_of_ne (e a : Entity α) (h : a.name ≠ e.name) : entUpd e a = a := by
  unfold entUpd
  rw [if_neg (by simpa using h)]

theorem entUpd_of_eq (e a : Entity α) (h : a.name = e.name) :
    entUpd e a = { a with properties := dictUpdate a.properties e.properties } := by
  unfold entUpd
  rw [if_pos (by simpa using h)]

theorem map_entUpd_names (acc : List (Entity α)) (e : Entity α) :
    ((acc.map (entUpd e)).map (·.name)) = acc.map (·.name) := by
  rw [List.map_map]
  apply List.map_congr_left
  intro a _
  simp [Function.comp_apply, entUpd_name]

theorem entStep_names (acc : List (Entity α)) (e : Entity α) :
    (entStep acc e).map (·.name) =
      if e.name ∈ acc.map (·.name) then acc.map (·.name)
      else acc.map (·.name) ++ [e.name] := by
  unfold entStep
  by_cases h : acc.any (fun x => x.name == e.name)
  · have hmem : e.name ∈ acc.map (·.name) := by
      obtain ⟨x, hx, hx'⟩ := List.any_eq_true.mp h
      have hn : x.name = e.name := by simpa using hx'
      exact List.mem_map.mpr ⟨x, hx, hn⟩
    simp only [h, if_true, hmem]
    exact map_entUpd_names acc e
  · have hmem : e.name ∉ acc.map (·.name) := by
      intro hc
      obtain ⟨x, hx, hx'⟩ := List.mem_map.mp hc
      exact h (List.any_eq_true.mpr ⟨x, hx, by simp [hx']⟩)
    simp [h, hmem]

theorem foldl_entStep_names (es acc : List (Entity α)) :
    ((es.foldl entStep acc).map (·.name)) =
      ((es.map (·.name)).foldl fsdStep
        (acc.map (·.name))) := by
  induction es generalizing acc with
  | nil => simp
  | cons e rest ih =>
    simp only [List.foldl_cons, List.map_cons]
    rw [ih, entStep_names]
    rfl

theorem entStep_nodupNames (acc : List (Entity α)) (e : Entity α)
    (h : (acc.map (·.name)).Nodup) : ((entStep acc e).map (·.name)).Nodup := by
  rw [entStep_names]
  by_cases hm : e.name ∈ acc.map (·.name)
  · simpa [hm] using h
  · rw [if_neg hm]
    refine List.Nodup.append h (List.nodup_singleton _) ?_
    intro n hn hn'
    have : n = e.name := by simpa using hn'
    exact hm (this ▸ hn)

/-- In a list with no duplicate names, searching for the name of a member
finds that member. -/
theorem find?_name_of_mem (acc : List (Entity α))
    (hnd : (acc.map (·.name)).Nodup) (x : Entity α) (hx : x ∈ acc) :
    acc.find? (fun a => a.name == x.name) = some x := by
  induction acc with
  | nil => cases hx
  | cons a tl ih =>
    rcases List.mem_cons.mp hx with rfl | hxtl
    · simp [List.find?_cons]
    · have ha : a.name ≠ x.name := by
        intro hc
        have : x.name ∈ tl.map (·.name) := List.mem_map.mpr ⟨x, hxtl, rfl⟩
        simp only [List.map_cons, List.nodup_cons] at hnd
        exact hnd.1 (hc ▸ this)
      have hb : (a.name == x.name) = false := by simpa using ha
      rw [List.find?_cons, hb]
      have hnd' : (tl.map (·.name)).Nodup := by
        simp only [List.map_cons, List.nodup_cons] at hnd
        exact hnd.2
      exact ih hnd' hxtl

theorem any_name_iff (acc : List (Entity α)) (n : String) :
    (acc.any (fun z => z.name == n)) = true ↔ n ∈ acc.map (·.name) := by
  rw [List.any_eq_true]
  constructor
  · rintro ⟨a, ha, ha'⟩
    exact List.mem_map.mpr ⟨a, ha, by simpa using ha'⟩
  · rintro hm
    obtain ⟨a, ha, ha'⟩ := List.mem_map.mp hm
    exact ⟨a, ha, by simpa using ha'⟩

/-- Every entity produced by the loop takes its `type` from the entry of
the starting accumulator with its name, or else from the first occurrence
of its name in the processed entity sequence. -/
theorem foldl_entStep_type (es : List (Entity α)) (acc : List (Entity α))
    (hnd : (acc.map (·.name)).Nodup) (x : Entity α)
    (hx : x ∈ es.foldl entStep acc) :
    (∃ a ∈ acc, a.name = x.name ∧ a.type = x.type) ∨
      ((∀ a ∈ acc, a.name ≠ x.name) ∧
        ∃ f, es.find? (fun z => z.name == x.name) = some f ∧ x.type = f.type) := by
  induction es generalizing acc with
  | nil =>
    exact Or.inl ⟨x, hx, rfl, rfl⟩
  | cons e rest ih =>
    simp only [List.foldl_cons] at hx
    by_cases hcol : acc.any (fun z => z.name == e.name) = true
    · have hstep : entStep acc e = acc.map (entUpd e) := by
        unfold entStep; rw [if_pos hcol]
      rw [hstep] at hx
      have hnd' : ((acc.map (entUpd e)).map (·.name)).Nodup := by
        rw [map_entUpd_names]; exact hnd
      rcases ih (acc.map (entUpd e)) hnd' hx with ⟨a', ha', hname, htype⟩ | ⟨hall, f, hfind, htype⟩
      · obtain ⟨a, ha, rfl⟩ := List.mem_map.mp ha'
        exact Or.inl ⟨a, ha, (entUpd_name e a) ▸ hname, (entUpd_type e a) ▸ htype⟩
      · have hall' : ∀ a ∈ acc, a.name ≠ x.name := by
          intro a ha
          have := hall (entUpd e a) (List.mem_map.mpr ⟨a, ha, rfl⟩)
          rwa [entUpd_name] at this
        refine Or.inr ⟨hall', ?_⟩
        have hpe : (e.name == x.name) = false := by
          simp only [beq_eq_false_iff_ne, ne_eq]
          intro hc
          obtain ⟨a, ha, ha'⟩ := List.mem_map.mp ((any_name_iff acc e.name).mp hcol)
          exact hall' a ha (ha'.trans hc)
        rw [List.find?_cons, hpe]
        exact ⟨f, hfind, htype⟩
    · have hstep : entStep acc e = acc ++ [e] := by
        unfold entStep; rw [if_neg hcol]
      rw [hstep] at hx
      have hmem : e.name ∉ acc.map (·.name) := fun hc => hcol ((any_name_iff acc e.name).mpr hc)
      have hnd' : (((acc ++ [e]).map (·.name))).Nodup := by
        rw [← hstep]
        exact entStep_nodupNames acc e hnd
      rcases ih (acc ++ [e]) hnd' hx with ⟨a', ha', hname, htype⟩ | ⟨hall, f, hfind, htype⟩
      · rcases List.mem_append.mp ha' with haacc | hae
        · exact Or.inl ⟨a', haacc, hname, htype⟩
        · have hae' : a' = e := by simpa using hae
          have hxe : e.name = x.name := hae' ▸ hname
          refine Or.inr ⟨?_, e, ?_, (hae' ▸ htype).symm⟩
          · intro a ha hc
            exact hmem (List.mem_map.mpr ⟨a, ha, hc.trans hxe.symm⟩)
          · rw [List.find?_cons, show (e.name == x.name) = true by simpa using hxe]
      · have halle : e.name ≠ x.name := hall e (List.mem_append.mpr (Or.inr (by simp)))
        refine Or.inr ⟨fun a ha => hall a (List.mem_append.mpr (Or.inl ha)), f, ?_, htype⟩
        rw [List.find?_cons, show (e.name == x.name) = false by simpa using halle]
        exact hfind

theorem entryLookup_none (k : String) :
    entryLookup k (none : Option (Entity α)) = none := rfl

theorem entryLookup_some (k : String) (a : Entity α) :
    entryLookup k (some a) = a.properties.lookup k := rfl

theorem entryLookup_some_map (k : String) (g : Entity α → Entity α) (a : Entity α) :
    entryLookup k ((some a).map g) = (g a).properties.lookup k := rfl

theorem entUpd_props_of_eq (e a : Entity α) (h : a.name = e.name) (k : String) :
    ((entUpd e a).properties.lookup k)
      = ((e.properties.lookup k).or (a.properties.lookup k)) := by
  rw [entUpd_of_eq e a h]
  exact dictUpdate_lookup k a.properties e.properties

theorem kg_findSome?_singleton (f : β → Option γ) (a : β) :
    [a].findSome? f = f a := by
  cases h : f a <;> simp [List.findSome?_cons, h]

/-- Every entity produced by the loop carries, key by key, the value of
the last occurrence of its name in the processed sequence holding that
key, falling back to its entry in the starting accumulator. -/
theorem foldl_entStep_props (es : List (Entity α)) (acc : List (Entity α))
    (hnd : (acc.map (·.name)).Nodup) (x : Entity α)
    (hx : x ∈ es.foldl entStep acc) (k : String) :
    x.properties.lookup k =
      (((es.filter (fun z => z.name == x.name)).reverse.findSome?
          (fun o => o.properties.lookup k)).or
        (entryLookup k (acc.find? (fun a => a.name == x.name)))) := by
  induction es generalizing acc with
  | nil =>
    rw [find?_name_of_mem acc hnd x hx, entryLookup_some]
    simp
  | cons e rest ih =>
    simp only [List.foldl_cons] at hx
    have hpredmap : ((fun a => a.name == x.name) ∘ entUpd e)
        = (fun a : Entity α => a.name == x.name) := by
      funext a
      simp [Function.comp_apply, entUpd_name]
    by_cases hcol : acc.any (fun z => z.name == e.name) = true
    · have hstep : entStep acc e = acc.map (entUpd e) := by
        unfold entStep; rw [if_pos hcol]
      rw [hstep] at hx
      have hnd' : ((acc.map (entUpd e)).map (·.name)).Nodup := by
        rw [map_entUpd_names]; exact hnd
      have IH := ih (acc.map (entUpd e)) hnd' hx
      rw [List.find?_map, hpredmap] at IH
      by_cases hxe : e.name = x.name
      · have hfe : (e.name == x.name) = true := by simpa using hxe
        obtain ⟨a, ha, ha'⟩ := List.mem_map.mp ((any_name_iff acc e.name).mp hcol)
        have hsome : (acc.find? (fun a => a.name == x.name)).isSome := by
          apply List.find?_isSome.mpr
          exact ⟨a, ha, by simp [ha', hxe]⟩
        obtain ⟨a₀, hfind⟩ := Option.isSome_iff_exists.mp hsome
        have ha₀ : a₀.name = x.name := by simpa using List.find?_some hfind
        rw [hfind] at IH ⊢
        rw [entryLookup_some_map, entUpd_props_of_eq e a₀ (ha₀.trans hxe.symm)] at IH
        rw [entryLookup_some]
        simp only [List.filter_cons, hfe, if_true, List.reverse_cons]
        rw [List.findSome?_append, kg_findSome?_singleton, IH, Option.or_assoc]
      · have hfe : (e.name == x.name) = false := by simpa using hxe
        simp only [List.filter_cons, hfe]
        cases hfind : acc.find? (fun a => a.name == x.name) with
        | none =>
          rw [hfind] at IH
          simpa using IH
        | some a₀ =>
          have ha₀ : a₀.name = x.name := by simpa using List.find?_some hfind
          have hne : a₀.name ≠ e.name := by
            rw [ha₀]
            exact fun hc => hxe hc.symm
          rw [hfind] at IH
          rw [entryLookup_some_map, entUpd_of_ne e a₀ hne] at IH
          rw [entryLookup_some]
          simpa using IH
    · have hstep : entStep acc e = acc ++ [e] := by
        unfold entStep; rw [if_neg hcol]
      rw [hstep] at hx
      have hmem : e.name ∉ acc.map (·.name) := fun hc => hcol ((any_name_iff acc e.name).mpr hc)
      have hnd' : (((acc ++ [e]).map (·.name))).Nodup := by
        rw [← hstep]
        exact entStep_nodupNames acc e hnd
      have IH := ih (acc ++ [e]) hnd' hx
      rw [List.find?_append] at IH
      by_cases hxe : e.name = x.name
      · have hfe : (e.name == x.name) = true := by simpa using hxe
        have hnone : acc.find? (fun a => a.name == x.name) = none := by
          apply List.find?_eq_none.mpr
          intro a ha hc
          have hax : a.name = x.name := by simpa using hc
          exact hmem (List.mem_map.mpr ⟨a, ha, hax.trans hxe.symm⟩)
        rw [hnone] at IH ⊢
        rw [List.find?_cons, hfe] at IH
        rw [entryLookup_none]
        simp only [Option.none_or, Option.or_none] at IH ⊢
        rw [entryLookup_some] at IH
        simp only [List.filter_cons, hfe, if_true, List.reverse_cons]
        rw [List.findSome?_append, kg_findSome?_singleton, IH]
      · have hfe : (e.name == x.name) = false := by simpa using hxe
        simp only [List.filter_cons, hfe]
        rw [List.find?_cons, hfe, List.find?_nil, Option.or_none] at IH
        simpa using IH

/-! ### Folding over all fragments versus folding over the joined lists -/

theorem foldl_graphs_entities (graphs : List (KnowledgeGraph α)) (acc : List (Entity α)) :
    graphs.foldl (fun acc g => g.entities.foldl entStep acc) acc
      = (joinEntities graphs).foldl entStep acc := by
  induction graphs generalizing acc with
  | nil => simp [joinEntities]
  | cons g gs ih =>
    simp only [List.foldl_cons, joinEntities, List.map_cons, List.flatten_cons,
      List.foldl_append]
    exact ih (g.entities.foldl entStep acc)

theorem foldl_graphs_rels (graphs : List (KnowledgeGraph α)) (acc : List (Relationship α)) :
    graphs.foldl (fun acc g => acc ++ g.relationships) acc
      = acc ++ joinRelationships graphs := by
  induction graphs generalizing acc with
  | nil => simp [joinRelationships]
  | cons g gs ih =>
    simp only [List.foldl_cons, joinRelationships, List.map_cons, List.flatten_cons]
    rw [ih, List.append_assoc]
    rfl

/-! ### Lemmas about `firstSeenDedup` -/

theorem firstSeenDedup_aux_nodup [DecidableEq β] (xs acc : List β) (h : acc.Nodup) :
    (xs.foldl fsdStep acc).Nodup := by
  induction xs generalizing acc with
  | nil => exact h
  | cons x rest ih =>
    simp only [List.foldl_cons]
    by_cases hm : x ∈ acc
    · rw [fsdStep_pos hm]
      exact ih acc h
    · rw [fsdStep_neg hm]
      refine ih _ (List.Nodup.append h (List.nodup_singleton _) ?_)
      intro n hn hn'
      have : n = x := by simpa using hn'
      exact hm (this ▸ hn)

theorem firstSeenDedup_nodup [DecidableEq β] (xs : List β) : (firstSeenDedup xs).Nodup :=
  firstSeenDedup_aux_nodup xs [] List.nodup_nil

theorem firstSeenDedup_aux_of_nodup [DecidableEq β] (xs acc : List β)
    (h : (acc ++ xs).Nodup) :
    xs.foldl fsdStep acc = acc ++ xs := by
  induction xs generalizing acc with
  | nil => simp
  | cons x rest ih =>
    have hx : x ∉ acc := by
      intro hc
      exact (List.disjoint_of_nodup_append h) hc (by simp)
    simp only [List.foldl_cons, fsdStep_neg hx]
    have h' : ((acc ++ [x]) ++ rest).Nodup := by
      simpa [List.append_assoc] using h
    rw [ih (acc ++ [x]) h', List.append_assoc]
    rfl

theorem firstSeenDedup_of_nodup [DecidableEq β] (xs : List β) (h : xs.Nodup) :
    firstSeenDedup xs = xs := by
  unfold firstSeenDedup
  simpa using firstSeenDedup_aux_of_nodup xs [] (by simpa using h)

/-! ### Lemmas about the relationship-deduplication loop -/

theorem foldl_relStep_keys (rels : List (Relationship α))
    (s : Finset (String × String × String)) (o : List (Relationship α))
    (hinv : ∀ t, t ∈ s ↔ t ∈ o.map relKey) :
    ((rels.foldl relStep (s, o)).2.map relKey)
      = (rels.map relKey).foldl fsdStep
          (o.map relKey) := by
  induction rels generalizing s o with
  | nil => simp
  | cons r rest ih =>
    simp only [List.foldl_cons, List.map_cons, relStep]
    by_cases hm : relKey r ∈ s
    · rw [if_pos hm, fsdStep_pos ((hinv (relKey r)).mp hm)]
      exact ih s o hinv
    · have hmo : relKey r ∉ o.map relKey := fun hc => hm ((hinv (relKey r)).mpr hc)
      rw [if_neg hm, fsdStep_neg hmo]
      have hinv' : ∀ t, t ∈ insert (relKey r) s ↔ t ∈ (o ++ [r]).map relKey := by
        intro t
        rw [Finset.mem_insert, List.map_append, List.mem_append]
        constructor
        · rintro (rfl | hts)
          · exact Or.inr (by simp)
          · exact Or.inl ((hinv t).mp hts)
        · rintro (hto | ht)
          · exact Or.inr ((hinv t).mpr hto)
          · exact Or.inl (by simpa using ht)
      rw [ih (insert (relKey r) s) (o ++ [r]) hinv', List.map_append]
      rfl

/-- Every relationship kept by the deduplication loop is either from the
starting output or is the first occurrence of its key in the processed
list. -/
theorem foldl_relStep_find? (rels : List (Relationship α))
    (s : Finset (String × String × String)) (o : List (Relationship α))
    (r : Relationship α) (hr : r ∈ (rels.foldl relStep (s, o)).2) :
    r ∈ o ∨ (relKey r ∉ s ∧
      rels.find? (fun z => relKey z == relKey r) = some r) := by
  induction rels generalizing s o with
  | nil => exact Or.inl hr
  | cons x rest ih =>
    simp only [List.foldl_cons, relStep] at hr
    by_cases hm : relKey x ∈ s
    · rw [if_pos hm] at hr
      rcases ih s o hr with ho | ⟨hnots, hfind⟩
      · exact Or.inl ho
      · have hpx : (relKey x == relKey r) = false := by
          simp only [beq_eq_false_iff_ne, ne_eq]
          intro hc
          exact hnots (hc ▸ hm)
        refine Or.inr ⟨hnots, ?_⟩
        rw [List.find?_cons, hpx]
        exact hfind
    · rw [if_neg hm] at hr
      rcases ih (insert (relKey x) s) (o ++ [x]) hr with ho | ⟨hnots, hfind⟩
      · rcases List.mem_append.mp ho with ho' | hx
        · exact Or.inl ho'
        · have hrx : r = x := by simpa using hx
          subst hrx
          refine Or.inr ⟨hm, ?_⟩
          rw [List.find?_cons, show (relKey r == relKey r) = true by simp]
      · have hne : relKey r ≠ relKey x := by
          intro hc
          exact hnots (hc ▸ Finset.mem_insert_self _ _)
        refine Or.inr ⟨fun hc => hnots (Finset.mem_insert_of_mem hc), ?_⟩
        rw [List.find?_cons, show (relKey x == relKey r) = false by
          simpa using fun hc => hne hc.symm]
        exact hfind

/-! ### Re-merging a deduplicated graph changes nothing -/

theorem foldl_entStep_of_nodup (es : List (Entity α)) (acc : List (Entity α))
    (h : (((acc ++ es).map (·.name))).Nodup) :
    es.foldl entStep acc = acc ++ es := by
  induction es generalizing acc with
  | nil => simp
  | cons e rest ih =>
    have he : e.name ∉ acc.map (·.name) := by
      rw [List.map_append] at h
      intro hc
      exact (List.disjoint_of_nodup_append h) hc (by simp)
    have hcol : ¬ acc.any (fun z => z.name == e.name) = true :=
      fun hc => he ((any_name_iff acc e.name).mp hc)
    simp only [List.foldl_cons]
    have hstep : entStep acc e = acc ++ [e] := by
      unfold entStep; rw [if_neg hcol]
    rw [hstep, ih (acc ++ [e]) (by simpa using h), List.append_assoc]
    rfl

theorem foldl_relStep_of_nodup (rels : List (Relationship α))
    (s : Finset (String × String × String)) (o : List (Relationship α))
    (hnd : (rels.map relKey).Nodup)
    (hs : ∀ r ∈ rels, relKey r ∉ s) :
    (rels.foldl relStep (s, o)).2 = o ++ rels := by
  induction rels generalizing s o with
  | nil => simp
  | cons r rest ih =>
    simp only [List.foldl_cons, relStep]
    rw [if_neg (hs r (by simp))]
    have hnd' : (rest.map relKey).Nodup := by
      simp only [List.map_cons, List.nodup_cons] at hnd
      exact hnd.2
    have hs' : ∀ r' ∈ rest, relKey r' ∉ insert (relKey r) s := by
      intro r' hr' hc
      rcases Finset.mem_insert.mp hc with hc' | hc'
      · simp only [List.map_cons, List.nodup_cons] at hnd
        exact hnd.1 (hc' ▸ List.mem_map.mpr ⟨r', hr', rfl⟩)
      · exact hs r' (by simp [hr']) hc'
    rw [ih (insert (relKey r) s) (o ++ [r]) hnd' hs', List.append_assoc]
    rfl

/-! ### Shape of the merged graph -/

theorem merge_entities_eq (graphs : List (KnowledgeGraph α)) :
    (mergeKnowledgeGraphs graphs).entities = (joinEntities graphs).foldl entStep [] := by
  simp only [mergeKnowledgeGraphs]
  exact foldl_graphs_entities graphs []

theorem merge_rels_eq (graphs : List (KnowledgeGraph α)) :
    (mergeKnowledgeGraphs graphs).relationships
      = dedupRelationships (joinRelationships graphs) := by
  simp only [mergeKnowledgeGraphs]
  rw [foldl_graphs_rels]
  rfl

theorem merge_names_eq (graphs : List (KnowledgeGraph α)) :
    ((mergeKnowledgeGraphs graphs).entities.map (·.name))
      = firstSeenDedup ((joinEntities graphs).map (·.name)) := by
  rw [merge_entities_eq, foldl_entStep_names]
  rfl

theorem merge_names_nodup (graphs : List (KnowledgeGraph α)) :
    (((mergeKnowledgeGraphs graphs).entities.map (·.name))).Nodup := by
  rw [merge_names_eq]
  exact firstSeenDedup_nodup _

theorem merge_relKeys_eq (graphs : List (KnowledgeGraph α)) :
    ((mergeKnowledgeGraphs graphs).relationships.map relKey)
      = firstSeenDedup ((joinRelationships graphs).map relKey) := by
  rw [merge_rels_eq]
  unfold dedupRelationships
  rw [foldl_relStep_keys (joinRelationships graphs) ∅ [] (by simp)]
  unfold firstSeenDedup
  rfl

theorem merge_relKeys_nodup (graphs : List (KnowledgeGraph α)) :
    (((mergeKnowledgeGraphs graphs).relationships.map relKey)).Nodup := by
  rw [merge_relKeys_eq]
  exact firstSeenDedup_nodup _

theorem KnowledgeGraph.ext' (g h : KnowledgeGraph α)
    (h1 : g.entities = h.entities) (h2 : g.relationships = h.relationships) :
    g = h := by
  cases g; cases h; cases h1; cases h2; rfl

/-! ### Claim theorems about `merge_knowledge_graphs` -/

/-- C1: for every sequence of fragments, `merge_knowledge_graphs` returns
a graph with exactly one entity per distinct name (case-sensitive), in
first-seen order; an entity's type is the type of its first occurrence,
and its properties are the key-wise union of all occurrences' properties
with later occurrences overwriting earlier values on key conflict. -/
theorem merge_entities_dedup_spec (graphs : List (KnowledgeGraph α)) :
    (((mergeKnowledgeGraphs graphs).entities.map (·.name))
        = firstSeenDedup ((joinEntities graphs).map (·.name)))
    ∧ ((((mergeKnowledgeGraphs graphs).entities.map (·.name))).Nodup)
    ∧ (∀ x ∈ (mergeKnowledgeGraphs graphs).entities,
        (∀ f, (joinEntities graphs).find? (fun z => z.name == x.name) = some f →
          x.type = f.type)
      ∧ (∀ k, x.properties.lookup k
          = ((joinEntities graphs).filter (fun z => z.name == x.name)).reverse.findSome?
              (fun o => o.properties.lookup k))) := by
  refine ⟨merge_names_eq graphs, merge_names_nodup graphs, ?_⟩
  intro x hx
  rw [merge_entities_eq] at hx
  constructor
  · intro f hf
    rcases foldl_entStep_type (joinEntities graphs) [] (by simp) x hx with
      ⟨a, ha, _⟩ | ⟨_, f₀, hfind₀, htype₀⟩
    · cases ha
    · rw [hf] at hfind₀
      cases hfind₀
      exact htype₀
  · intro k
    have h := foldl_entStep_props (joinEntities graphs) [] (by simp) x hx k
    rw [List.find?_nil, entryLookup_none, Option.or_none] at h
    exact h

/-- Witness for C1 at the spec's scenario 1: two fragments both naming
`AI`; the merged entity keeps the first-seen type `Concept` and gains the
later property `lang = en`. -/
theorem merge_entities_dedup_spec_witness :
    ((⟨"AI", "Concept", [("lang", "en")]⟩ : Entity String)
        ∈ (mergeKnowledgeGraphs
            [⟨[⟨"AI", "Concept", []⟩], []⟩,
             ⟨[⟨"AI", "Topic", [("lang", "en")]⟩], []⟩]).entities)
    ∧ (⟨"AI", "Concept", [("lang", "en")]⟩ : Entity String).type
        = (⟨"AI", "Concept", []⟩ : Entity String).type :=
  ⟨by decide,
    ((merge_entities_dedup_spec
        [⟨[⟨"AI", "Concept", []⟩], []⟩,
         ⟨[⟨"AI", "Topic", [("lang", "en")]⟩], []⟩]).2.2
      ⟨"AI", "Concept", [("lang", "en")]⟩ (by decide)).1
      ⟨"AI", "Concept", []⟩ (by decide)⟩

/-- C2: the merged relationships contain exactly one relationship per
distinct `(source, target, type)` triple, in first-seen order of the
concatenation in fragment order; the kept relationship is the first
occurrence of its triple, with its own properties (later duplicates are
dropped, their properties discarded). -/
theorem merge_relationships_dedup_spec (graphs : List (KnowledgeGraph α)) :
    (((mergeKnowledgeGraphs graphs).relationships.map relKey)
        = firstSeenDedup ((joinRelationships graphs).map relKey))
    ∧ ((((mergeKnowledgeGraphs graphs).relationships.map relKey)).Nodup)
    ∧ (∀ r ∈ (mergeKnowledgeGraphs graphs).relationships,
        (joinRelationships graphs).find? (fun z => relKey z == relKey r) = some r) := by
  refine ⟨merge_relKeys_eq graphs, merge_relKeys_nodup graphs, ?_⟩
  intro r hr
  rw [merge_rels_eq] at hr
  unfold dedupRelationships at hr
  rcases foldl_relStep_find? (joinRelationships graphs) ∅ [] r hr with ho | ⟨_, hfind⟩
  · cases ho
  · exact hfind

/-- Witness for C2 at the spec's scenario 2: two relationships with the
same `(A, B, rel)` triple; the kept one is the first, with empty
properties. -/
theorem merge_relationships_dedup_spec_witness :
    ((⟨"A", "B", "rel", []⟩ : Relationship Nat)
        ∈ (mergeKnowledgeGraphs
            [⟨[], [⟨"A", "B", "rel", []⟩, ⟨"A", "B", "rel", [("w", 5)]⟩]⟩]).relationships)
    ∧ (joinRelationships
          [⟨[], [⟨"A", "B", "rel", []⟩, ⟨"A", "B", "rel", [("w", 5)]⟩]⟩]).find?
        (fun z => relKey z == relKey (⟨"A", "B", "rel", []⟩ : Relationship Nat))
        = some ⟨"A", "B", "rel", []⟩ :=
  ⟨by decide,
    (merge_relationships_dedup_spec
        [⟨[], [⟨"A", "B", "rel", []⟩, ⟨"A", "B", "rel", [("w", 5)]⟩]⟩]).2.2
      ⟨"A", "B", "rel", []⟩ (by decide)⟩

/-- C8: merging is idempotent: re-merging the merged graph as a single
fragment returns the identical graph. -/
theorem merge_idempotent (graphs : List (KnowledgeGraph α)) :
    mergeKnowledgeGraphs [mergeKnowledgeGraphs graphs] = mergeKnowledgeGraphs graphs := by
  apply KnowledgeGraph.ext'
  · rw [merge_entities_eq]
    have hj : joinEntities [mergeKnowledgeGraphs graphs]
        = (mergeKnowledgeGraphs graphs).entities := by
      simp [joinEntities]
    rw [hj]
    have := foldl_entStep_of_nodup (mergeKnowledgeGraphs graphs).entities []
      (by simpa using merge_names_nodup graphs)
    simpa using this
  · rw [merge_rels_eq]
    have hj : joinRelationships [mergeKnowledgeGraphs graphs]
        = (mergeKnowledgeGraphs graphs).relationships := by
      simp [joinRelationships]
    rw [hj]
    unfold dedupRelationships
    have := foldl_relStep_of_nodup (mergeKnowledgeGraphs graphs).relationships ∅ []
      (merge_relKeys_nodup graphs) (by simp)
    simpa using this

/-! ### Claim theorems about `LLMExtractor.extract` -/

theorem mapOption_eq_none_of_mem {f : β → Option γ} {es : List β} {e : β}
    (he : e ∈ es) (hf : f e = none) : mapOption f es = none := by
  induction es with
  | nil => cases he
  | cons a tl ih =>
    rcases List.mem_cons.mp he with rfl | htl
    · simp [mapOption, hf]
    · cases ha : f a
      · simp [mapOption, ha]
      · simp [mapOption, ha, ih htl]

/-- C3: whenever the model response cannot be structurally parsed into the
expected JSON graph shape — the call raised, `json.loads` failed on the
(fence-stripped) content, or the parsed JSON fails the graph-shape
validation — `extract` returns the empty fragment instead of raising. -/
theorem extract_failure_returns_empty (llmOutcome : Option String)
    (jsonLoads : String → Option Json)
    (h : llmOutcome = none
      ∨ (∃ raw, llmOutcome = some raw ∧
          (jsonLoads (stripFence (pyStrip raw)) = none
            ∨ ∃ d, jsonLoads (stripFence (pyStrip raw)) = some d ∧ buildKG d = none))) :
    extractResult llmOutcome jsonLoads = emptyKG := by
  rcases h with h | ⟨raw, hraw, hfail⟩
  · rw [h]
    rfl
  · subst hraw
    rcases hfail with hnone | ⟨d, hd, hkg⟩
    · simp only [extractResult, hnone]
    · simp only [extractResult, hd, hkg, Option.getD_none]

/-- Witness for C3: a failed model call yields the empty fragment. -/
theorem extract_failure_returns_empty_witness :
    extractResult none (fun _ => none) = emptyKG :=
  extract_failure_returns_empty none (fun _ => none) (Or.inl rfl)

/-- Counterexample to C6: a parsed response whose `entities` list holds a
well-formed entity and one missing the required `name` field.  The claim
says the well-formed entity is kept; the code returns the empty fragment,
dropping it too (the pydantic error aborts the whole list comprehension
and is caught by the outer `except`). -/
theorem extract_malformed_item_counterexample :
    entityOfJson (Json.obj [("name", Json.str "AI"), ("type", Json.str "Concept")])
        = some ⟨"AI", "Concept", []⟩
    ∧ entityOfJson (Json.obj [("type", Json.str "Broken")]) = none
    ∧ (⟨"AI", "Concept", []⟩ : Entity Json) ∉ (extractResult (some "x")
        (fun _ => some (Json.obj
          [("entities", Json.arr
              [Json.obj [("name", Json.str "AI"), ("type", Json.str "Concept")],
               Json.obj [("type", Json.str "Broken")]]),
           ("relationships", Json.arr [])]))).entities := by
  refine ⟨rfl, rfl, ?_⟩
  show (⟨"AI", "Concept", []⟩ : Entity Json) ∉ (emptyKG).entities
  simp [emptyKG]

/-- C6 as amended: a single entity or relationship item failing the
data-model shape aborts the whole chunk's extraction — the fragment
degrades to empty, dropping the well-formed items of the same chunk too. -/
theorem extract_malformed_item_aborts_chunk (llmOutcome : Option String)
    (jsonLoads : String → Option Json) (raw : String)
    (kvs : List (String × Json))
    (h1 : llmOutcome = some raw)
    (h2 : jsonLoads (stripFence (pyStrip raw)) = some (Json.obj kvs))
    (h3 : (∃ es, getListField kvs "entities" = some es
            ∧ ∃ e ∈ es, entityOfJson e = none)
        ∨ (∃ rs, getListField kvs "relationships" = some rs
            ∧ ∃ r ∈ rs, relationshipOfJson r = none)) :
    extractResult llmOutcome jsonLoads = emptyKG := by
  apply extract_failure_returns_empty
  refine Or.inr ⟨raw, h1, Or.inr ⟨Json.obj kvs, h2, ?_⟩⟩
  rcases h3 with ⟨es, hes, e, he, henone⟩ | ⟨rs, hrs, r, hr, hrnone⟩
  · simp only [buildKG, hes, mapOption_eq_none_of_mem he henone]
  · cases hes : getListField kvs "entities" with
    | none => simp only [buildKG, hes]
    | some es =>
      cases hme : mapOption entityOfJson es with
      | none => simp only [buildKG, hes, hme]
      | some ents =>
        simp only [buildKG, hes, hme, hrs, mapOption_eq_none_of_mem hr hrnone]

/-- Witness for the amended C6 at the counterexample input. -/
theorem extract_malformed_item_aborts_chunk_witness :
    extractResult (some "x")
        (fun _ => some (Json.obj
          [("entities", Json.arr
              [Json.obj [("name", Json.str "AI"), ("type", Json.str "Concept")],
               Json.obj [("type", Json.str "Broken")]]),
           ("relationships", Json.arr [])])) = emptyKG :=
  extract_malformed_item_aborts_chunk (some "x") _ "x" _ rfl rfl
    (Or.inl ⟨_, rfl, Json.obj [("type", Json.str "Broken")], by simp, rfl⟩)

/-! ### Claim theorems about `Neo4jStorage.create_relationship` -/

/-- Counterexample to C4: upserting a relationship into an empty store
(both endpoint names missing) leaves the store empty — no placeholder
nodes are created and no edge is stored, because the query `MATCH`es the
endpoints instead of `MERGE`-ing them and therefore produces no rows. -/
theorem create_relationship_dangling_counterexample :
    createRelationship (⟨[], []⟩ : N4Graph Nat) "A" "B" "likes" [] = ⟨[], []⟩ := by
  decide

/-- C4 as amended: when the source or the target entity name does not
exist in the store, `create_relationship` is a silent no-op — the
relationship is dropped, and no placeholder node or edge is created. -/
theorem create_relationship_missing_endpoint_noop (g : N4Graph α)
    (src tgt ty : String) (props : List (String × α))
    (h : (∀ n ∈ g.nodes, n.name ≠ src) ∨ (∀ n ∈ g.nodes, n.name ≠ tgt)) :
    createRelationship g src tgt ty props = g := by
  have hrows : matchRows g src tgt = [] := by
    unfold matchRows
    rcases h with h | h
    · have hfil : (List.range g.nodes.length).filter
          (fun i => (g.nodes[i]?.map (·.name)) == some src) = [] := by
        apply List.filter_eq_nil_iff.mpr
        intro i _
        simp only [beq_eq_false_iff_ne, ne_eq, Bool.not_eq_true]
        cases hi : g.nodes[i]? with
        | none => simp
        | some n =>
          have hn : n ∈ g.nodes := List.getElem?_mem hi
          simp [h n hn]
      rw [hfil]
      rfl
    · have hfil : (List.range g.nodes.length).filter
          (fun j => (g.nodes[j]?.map (·.name)) == some tgt) = [] := by
        apply List.filter_eq_nil_iff.mpr
        intro j _
        simp only [beq_eq_false_iff_ne, ne_eq, Bool.not_eq_true]
        cases hj : g.nodes[j]? with
        | none => simp
        | some n =>
          have hn : n ∈ g.nodes := List.getElem?_mem hj
          simp [h n hn]
      rw [hfil]
      simp
  unfold createRelationship
  rw [hrows]
  rfl

/-- Witness for the amended C4: a store holding only node `A`; upserting a
relationship `A -> B` leaves the store unchanged. -/
theorem create_relationship_missing_endpoint_noop_witness :
    createRelationship (⟨[⟨"Person", "A", []⟩], []⟩ : N4Graph Nat) "A" "B" "knows" []
      = ⟨[⟨"Person", "A", []⟩], []⟩ :=
  create_relationship_missing_endpoint_noop _ "A" "B" "knows" []
    (Or.inr (by decide))

/-! ### Generic lemmas about stable sorting and ranks -/

/-- In a pairwise-`R`-sorted list of distinct elements on which `R` is
antisymmetric, the number of strict `R`-predecessors of the element at
position `i` is exactly `i`. -/
theorem sorted_countP_eq_index {γ : Type} (R : γ → γ → Prop) [DecidableRel R]
    [DecidableEq γ] (S : List γ) (hS : S.Pairwise R) (hnd : S.Nodup)
    (hasym : ∀ a ∈ S, ∀ b ∈ S, R a b → R b a → a = b)
    (i : Nat) (hi : i < S.length) :
    S.countP (fun y => decide (R y S[i] ∧ y ≠ S[i])) = i := by
  induction S generalizing i with
  | nil => cases hi
  | cons x rest ih =>
    have hxr : ∀ y ∈ rest, R x y := (List.pairwise_cons.mp hS).1
    have hrest : rest.Pairwise R := (List.pairwise_cons.mp hS).2
    have hxnot : x ∉ rest := (List.nodup_cons.mp hnd).1
    have hndr : rest.Nodup := (List.nodup_cons.mp hnd).2
    cases i with
    | zero =>
      simp only [List.getElem_cons_zero]
      apply List.countP_eq_zero.mpr
      intro y hy
      simp only [decide_eq_true_eq, not_and, ne_eq, Decidable.not_not]
      intro hRyx
      rcases List.mem_cons.mp hy with rfl | hyr
      · rfl
      · exact absurd (hasym y hy x (by simp) hRyx (hxr y hyr))
          (fun hc => hxnot (hc ▸ hyr))
    | succ j =>
      have hj : j < rest.length := by simpa using hi
      simp only [List.getElem_cons_succ]
      rw [List.countP_cons]
      have hmem : rest[j] ∈ rest := List.getElem_mem hj
      have hpx : decide (R x rest[j] ∧ x ≠ rest[j]) = true := by
        simp only [decide_eq_true_eq]
        refine ⟨hxr _ hmem, fun hc => hxnot (hc ▸ hmem)⟩
      rw [hpx, if_pos rfl]
      have := ih hrest hndr
        (fun a ha b hb => hasym a (by simp [ha]) b (by simp [hb])) j hj
      rw [this]

/-- An element of `l` with fewer than `limit` strict `R`-predecessors
appears in the first `limit` elements of the `R`-sorted permutation. -/
theorem mem_take_of_countP_lt {γ : Type} (R : γ → γ → Prop) [DecidableRel R]
    [DecidableEq γ] [IsTotal γ R] [IsTrans γ R]
    (l : List γ) (limit : Nat) (hnd : l.Nodup)
    (hasym : ∀ a ∈ l, ∀ b ∈ l, R a b → R b a → a = b)
    (x : γ) (hx : x ∈ l)
    (hcount : l.countP (fun y => decide (R y x ∧ y ≠ x)) < limit) :
    x ∈ (List.insertionSort R l).take limit := by
  have hperm : (List.insertionSort R l).Perm l := List.perm_insertionSort R l
  have hSx : x ∈ List.insertionSort R l := hperm.mem_iff.mpr hx
  have hSnd : (List.insertionSort R l).Nodup := hperm.nodup_iff.mpr hnd
  have hSsorted : (List.insertionSort R l).Pairwise R := List.sorted_insertionSort R l
  obtain ⟨i, hi, hgi⟩ := List.mem_iff_getElem.mp hSx
  have hasymS : ∀ a ∈ List.insertionSort R l, ∀ b ∈ List.insertionSort R l,
      R a b → R b a → a = b := by
    intro a ha b hb
    exact hasym a (hperm.mem_iff.mp ha) b (hperm.mem_iff.mp hb)
  have hpos := sorted_countP_eq_index R (List.insertionSort R l) hSsorted hSnd hasymS i hi
  rw [hgi] at hpos
  have hcnt := hperm.countP_eq (fun y => decide (R y x ∧ y ≠ x))
  have hilim : i < limit := by
    rw [← hpos, hcnt]
    exact hcount
  have hi' : i < ((List.insertionSort R l).take limit).length := by
    rw [List.length_take]
    exact Nat.lt_min.mpr ⟨hilim, hi⟩
  have hgt : ((List.insertionSort R l).take limit)[i] = x := by
    rw [List.getElem_take]
    exact hgi
  exact hgt ▸ List.getElem_mem hi'

/-! ### Lemmas about `scoreRow` -/

theorem scoreRow_eq_some {q : List ℝ} {t : ℝ} {row : String × List ℝ}
    {out : String × ℝ} (h : scoreRow q t row = some out) :
    out.1 = row.1 ∧ out.2 = cosineSim q row.2 ∧ t ≤ out.2
      ∧ 0 < vnorm q ∧ 0 < vnorm row.2 ∧ row.2 ≠ [] := by
  unfold scoreRow at h
  by_cases h1 : row.2 = []
  · rw [if_pos h1] at h
    cases h
  · rw [if_neg h1] at h
    by_cases h2 : 0 < vnorm q ∧ 0 < vnorm row.2
    · rw [if_pos h2] at h
      by_cases h3 : t ≤ cosineSim q row.2
      · rw [if_pos h3] at h
        cases h
        exact ⟨rfl, rfl, h3, h2.1, h2.2, h1⟩
      · rw [if_neg h3] at h
        cases h
    · rw [if_neg h2] at h
      cases h

/-! ### Claim theorem C9: zero-norm vectors are excluded, no division -/

/-- C9: a pair with a zero-norm query or entity vector is excluded from
the similarity results regardless of the threshold, and the similarity
division is reachable only when both norms are strictly positive (a score
is produced only under the positive-norms guard). -/
theorem find_similar_zero_norm_excluded (q : List ℝ) (threshold : ℝ) :
    (∀ row : String × List ℝ, vnorm q = 0 ∨ vnorm row.2 = 0 →
        scoreRow q threshold row = none)
    ∧ (∀ (row : String × List ℝ) (out : String × ℝ),
        scoreRow q threshold row = some out → 0 < vnorm q ∧ 0 < vnorm row.2)
    ∧ (∀ (rows : List (String × List ℝ)) (limit : Nat), vnorm q = 0 →
        findSimilarEntities rows q limit threshold = []) := by
  have hnone : ∀ row : String × List ℝ, vnorm q = 0 ∨ vnorm row.2 = 0 →
      scoreRow q threshold row = none := by
    intro row h
    unfold scoreRow
    by_cases h1 : row.2 = []
    · rw [if_pos h1]
    · rw [if_neg h1, if_neg]
      rintro ⟨hq, he⟩
      rcases h with h | h
      · rw [h] at hq
        exact lt_irrefl 0 hq
      · rw [h] at he
        exact lt_irrefl 0 he
  refine ⟨hnone, ?_, ?_⟩
  · intro row out h
    have hs := scoreRow_eq_some h
    exact ⟨hs.2.2.2.1, hs.2.2.2.2.1⟩
  · intro rows limit hq
    unfold findSimilarEntities sortedTagged
    rw [List.filterMap_eq_nil_iff.mpr (fun row _ => hnone row (Or.inl hq))]
    simp

/-- Witness for C9: the zero query vector produces no score against a
stored unit vector, and an empty result list. -/
theorem find_similar_zero_norm_excluded_witness :
    scoreRow [(0 : ℝ)] 0 ("a", [1]) = none
    ∧ findSimilarEntities [("a", [1])] [(0 : ℝ)] 1 0 = [] := by
  have hz : vnorm [(0 : ℝ)] = 0 := by
    simp [vnorm, sumSq]
  exact ⟨(find_similar_zero_norm_excluded [(0 : ℝ)] 0).1 ("a", [1]) (Or.inl hz),
    (find_similar_zero_norm_excluded [(0 : ℝ)] 0).2.2 [("a", [1])] 1 hz⟩

/-! ### Claim theorem C7: result ordering, threshold and length bounds -/

/-- C7: for every query vector and candidate rows (of the query's
dimension), `find_similar_entities` returns at most `limit` results, each
with score at least `threshold`, sorted by weakly descending similarity;
ties in the sorted scored candidates are broken by the stable original
retrieval order (strictly increasing positions). -/
theorem find_similar_sorted_bounded (rows : List (String × List ℝ)) (q : List ℝ)
    (limit : Nat) (threshold : ℝ)
    (hdim : ∀ r ∈ rows, r.2 ≠ [] → r.2.length = q.length) :
    ((findSimilarEntities rows q limit threshold).length ≤ limit)
    ∧ (∀ x ∈ findSimilarEntities rows q limit threshold, threshold ≤ x.2)
    ∧ List.Sorted (fun a b : String × ℝ => b.2 ≤ a.2)
        (findSimilarEntities rows q limit threshold)
    ∧ (∀ i j (hi : i < (sortedTagged rows q limit threshold).length)
        (hj : j < (sortedTagged rows q limit threshold).length), i < j →
        ((sortedTagged rows q limit threshold)[i]).2.2
          = ((sortedTagged rows q limit threshold)[j]).2.2 →
        ((sortedTagged rows q limit threshold)[i]).1
          < ((sortedTagged rows q limit threshold)[j]).1) := by
  have hperm : (sortedTagged rows q limit threshold).Perm
      (((rows.take (limit * 2)).filterMap (scoreRow q threshold)).enum) :=
    List.perm_insertionSort simRel _
  have hsorted : (sortedTagged rows q limit threshold).Pairwise simRel :=
    List.sorted_insertionSort simRel _
  have hfstnd : ((sortedTagged rows q limit threshold).map Prod.fst).Nodup :=
    ((hperm.map Prod.fst).nodup_iff).mpr (List.nodup_enum_map_fst _)
  have hnd : (sortedTagged rows q limit threshold).Nodup :=
    List.Nodup.of_map Prod.fst hfstnd
  refine ⟨?_, ?_, ?_, ?_⟩
  · unfold findSimilarEntities
    rw [List.length_map, List.length_take]
    exact min_le_left _ _
  · intro x hx
    unfold findSimilarEntities at hx
    obtain ⟨y, hy, rfl⟩ := List.mem_map.mp hx
    have hytag : y ∈ sortedTagged rows q limit threshold := List.mem_of_mem_take hy
    have hyenum := hperm.mem_iff.mp hytag
    have hysc : y.2 ∈ (rows.take (limit * 2)).filterMap (scoreRow q threshold) :=
      List.snd_mem_of_mem_enum hyenum
    obtain ⟨row, _, hrow⟩ := List.mem_filterMap.mp hysc
    exact (scoreRow_eq_some hrow).2.2.1
  · unfold findSimilarEntities
    refine List.Pairwise.map Prod.snd ?_ (hsorted.sublist (List.take_sublist _ _))
    intro a b hab
    rcases hab with h | ⟨h, _⟩
    · exact le_of_lt h
    · exact le_of_eq h.symm
  · intro i j hi hj hij heq
    have hrel : simRel ((sortedTagged rows q limit threshold).get ⟨i, hi⟩)
        ((sortedTagged rows q limit threshold).get ⟨j, hj⟩) :=
      List.Sorted.rel_get_of_lt hsorted hij
    rcases hrel with h | ⟨_, hle⟩
    · rw [List.get_eq_getElem, List.get_eq_getElem] at h
      rw [heq] at h
      exact absurd h (lt_irrefl _)
    · rw [List.get_eq_getElem, List.get_eq_getElem] at hle
      refine Nat.lt_of_le_of_ne hle ?_
      intro hc
      have hel : (sortedTagged rows q limit threshold)[i]
          = (sortedTagged rows q limit threshold)[j] :=
        List.inj_on_of_nodup_map hfstnd (List.getElem_mem hi) (List.getElem_mem hj) hc
      exact absurd ((List.Nodup.getElem_inj_iff hnd).mp hel) (Nat.ne_of_lt hij)

/-- Witness for C7 at one stored unit vector. -/
theorem find_similar_sorted_bounded_witness :
    (findSimilarEntities [("a", [(1 : ℝ)])] [1] 1 0).length ≤ 1 :=
  (find_similar_sorted_bounded [("a", [(1 : ℝ)])] [1] 1 0 (by simp)).1

/-! ### Claim C5: the candidate window is capped at `limit * 2` rows -/

/-- Counterexample to C5: with three stored embeddings and `limit = 1`,
the Cypher query retrieves only the first `limit * 2 = 2` rows, so the
third entity — whose cosine similarity to the query is `1`, above the
threshold `1/2`, and the top score overall — never has its similarity
computed and is absent from the (empty) result. -/
theorem find_similar_limit_counterexample :
    (1 : ℝ) / 2 ≤ cosineSim [1, 0] [1, 0]
    ∧ findSimilarEntities [("a", [0, 1]), ("b", [0, 1]), ("c", [1, 0])] [1, 0] 1 (1 / 2)
        = [] := by
  have hq : vnorm [(1 : ℝ), 0] = 1 := by
    simp [vnorm, sumSq]
  have he : vnorm [(0 : ℝ), 1] = 1 := by
    simp [vnorm, sumSq]
  have hrow : ∀ nm : String, scoreRow [(1 : ℝ), 0] (1 / 2) (nm, [0, 1]) = none := by
    intro nm
    unfold scoreRow
    rw [if_neg (by simp)]
    have hg : 0 < vnorm [(1 : ℝ), 0] ∧ 0 < vnorm [(0 : ℝ), 1] := by
      rw [hq, he]
      exact ⟨zero_lt_one, zero_lt_one⟩
    have hc : cosineSim [(1 : ℝ), 0] [0, 1] = 0 := by
      simp [cosineSim, dotp, hq, he]
    have hn : ¬((1 : ℝ) / 2 ≤ cosineSim [(1 : ℝ), 0] [0, 1]) := by
      rw [hc]
      norm_num
    rw [if_pos hg, if_neg hn]
  constructor
  · have h1 : cosineSim [(1 : ℝ), 0] [1, 0] = 1 := by
      simp [cosineSim, dotp, hq]
    rw [h1]
    norm_num
  · unfold findSimilarEntities sortedTagged
    rw [show ((1 : Nat) * 2) = 2 from rfl]
    rw [show List.take 2 [("a", [(0 : ℝ), 1]), ("b", [0, 1]), ("c", [1, 0])]
        = [("a", [0, 1]), ("b", [0, 1])] from rfl]
    rw [List.filterMap_cons_none (hrow "a"), List.filterMap_cons_none (hrow "b"),
      List.filterMap_nil]
    simp

/-- C5 as amended: the similarity search considers only the first
`limit * 2` retrieved rows; every scored candidate among those rows (its
norms positive and its similarity at least the threshold) whose rank —
descending similarity, ties by retrieval order — is within `limit`
appears in the result. -/
theorem find_similar_within_window_appears (rows : List (String × List ℝ))
    (q : List ℝ) (limit : Nat) (threshold : ℝ)
    (hdim : ∀ r ∈ rows, r.2 ≠ [] → r.2.length = q.length)
    (x : Nat × String × ℝ)
    (hx : x ∈ ((rows.take (limit * 2)).filterMap (scoreRow q threshold)).enum)
    (hcount : (((rows.take (limit * 2)).filterMap (scoreRow q threshold)).enum).countP
        (fun y => decide (simRel y x ∧ y ≠ x)) < limit) :
    x.2 ∈ findSimilarEntities rows q limit threshold := by
  have hnd : (((rows.take (limit * 2)).filterMap (scoreRow q threshold)).enum).Nodup :=
    List.Nodup.of_map Prod.fst (List.nodup_enum_map_fst _)
  have hasym : ∀ a ∈ ((rows.take (limit * 2)).filterMap (scoreRow q threshold)).enum,
      ∀ b ∈ ((rows.take (limit * 2)).filterMap (scoreRow q threshold)).enum,
      simRel a b → simRel b a → a = b := by
    intro a ha b hb hab hba
    rcases hab with h1 | ⟨he1, hle1⟩ <;> rcases hba with h2 | ⟨he2, hle2⟩
    · exact absurd h2 (lt_asymm h1)
    · rw [he2] at h1
      exact absurd h1 (lt_irrefl _)
    · rw [he1] at h2
      exact absurd h2 (lt_irrefl _)
    · exact List.inj_on_of_nodup_map (List.nodup_enum_map_fst _) ha hb
        (Nat.le_antisymm hle1 hle2)
  have hmem := mem_take_of_countP_lt simRel _ limit hnd hasym x hx hcount
  unfold findSimilarEntities
  exact List.mem_map.mpr ⟨x, hmem, rfl⟩

/-- Witness for the amended C5: one stored unit vector, scored `1`, sits
within the window and within the limit, and appears in the result. -/
theorem find_similar_within_window_appears_witness :
    ((0, ("a", (1 : ℝ))) : Nat × String × ℝ).2
      ∈ findSimilarEntities [("a", [(1 : ℝ)])] [1] 1 0 := by
  have hn : vnorm [(1 : ℝ)] = 1 := by
    simp [vnorm, sumSq]
  have hc : cosineSim [(1 : ℝ)] [1] = 1 := by
    simp [cosineSim, dotp, hn]
  have hscore : scoreRow [(1 : ℝ)] 0 ("a", [1]) = some ("a", 1) := by
    unfold scoreRow
    rw [if_neg (by simp), if_pos (by rw [hn]; exact ⟨zero_lt_one, zero_lt_one⟩),
      if_pos (by rw [hc]; exact zero_le_one), hc]
  have hlist : (([("a", [(1 : ℝ)])].take (1 * 2)).filterMap (scoreRow [1] 0)).enum
      = [(0, ("a", 1))] := by
    rw [show (([("a", [(1 : ℝ)])].take (1 * 2))) = [("a", [1])] from rfl]
    rw [List.filterMap_cons_some hscore, List.filterMap_nil]
    rfl
  apply find_similar_within_window_appears [("a", [(1 : ℝ)])] [1] 1 0 (by simp)
    (0, ("a", 1))
  · rw [hlist]
    simp
  · rw [hlist]
    have hp : (decide (simRel (0, ("a", (1 : ℝ))) (0, ("a", 1))
        ∧ (0, ("a", (1 : ℝ))) ≠ (0, ("a", 1)))) = false := by
      simp only [decide_eq_false_iff_not]
      rintro ⟨_, hne⟩
      exact hne rfl
    rw [List.countP_cons, List.countP_nil, hp]
    simp


/-! ### Claim C10: merge mutates its input fragments' entity objects -/

theorem foldl_pres {σ : Type} {β : Type} (g : σ → β → σ) (P : σ → Prop)
    (hstep : ∀ s b, P s → P (g s b)) (l : List β) (s : σ) (h : P s) :
    P (l.foldl g s) := by
  induction l generalizing s with
  | nil => exact h
  | cons b tl ih => exact ih (g s b) (hstep s b h)

theorem hentStep_collision (st : MergeState α) (eid exId : Nat)
    (h : st.entityMap.lookup (st.heap.getD eid ⟨"", "", []⟩).name = some exId) :
    hentStep st eid
      = ⟨st.heap.modify (fun x =>
            ⟨x.name, x.type,
              dictUpdate x.properties (st.heap.getD eid ⟨"", "", []⟩).properties⟩) exId,
          st.entityMap, st.allEntities, st.updated ++ [exId]⟩ := by
  simp only [hentStep, h]

theorem hentStep_new (st : MergeState α) (eid : Nat)
    (h : st.entityMap.lookup (st.heap.getD eid ⟨"", "", []⟩).name = none) :
    hentStep st eid
      = ⟨st.heap, st.entityMap ++ [((st.heap.getD eid ⟨"", "", []⟩).name, eid)],
          st.allEntities ++ [eid], st.updated⟩ := by
  simp only [hentStep, h]

theorem map_field_modify {β : Type} (g : HEntity α → HEntity α)
    (fld : HEntity α → β) (hg : ∀ x, fld (g x) = fld x)
    (o : Option (HEntity α)) (c : Prop) [Decidable c] :
    ((fun a => if c then g a else a) <$> o).map fld = o.map fld := by
  cases o with
  | none => rfl
  | some a => by_cases hc : c <;> simp [hc, hg a]

theorem map_id_modify (g : HEntity α → HEntity α)
    (o : Option (HEntity α)) (c : Prop) [Decidable c] (hc : ¬c) :
    ((fun a => if c then g a else a) <$> o) = o := by
  cases o with
  | none => rfl
  | some a => simp [hc]

/-- One loop iteration preserves heap length, every slot's name and type,
and every slot not recorded in `updated`. -/
theorem hentStep_inv (heap0 : List (HEntity α)) (st : MergeState α) (eid : Nat)
    (hlen : st.heap.length = heap0.length)
    (hnt : ∀ i : Nat, ((st.heap[i]?.map (·.name)) = (heap0[i]?.map (·.name))
        ∧ (st.heap[i]?.map (·.type)) = (heap0[i]?.map (·.type))))
    (hun : ∀ i : Nat, i ∉ st.updated → st.heap[i]? = heap0[i]?) :
    ((hentStep st eid).heap.length = heap0.length)
    ∧ (∀ i : Nat, (((hentStep st eid).heap[i]?.map (·.name)) = (heap0[i]?.map (·.name))
        ∧ ((hentStep st eid).heap[i]?.map (·.type)) = (heap0[i]?.map (·.type))))
    ∧ (∀ i : Nat, i ∉ (hentStep st eid).updated →
        (hentStep st eid).heap[i]? = heap0[i]?) := by
  cases hl : st.entityMap.lookup (st.heap.getD eid ⟨"", "", []⟩).name with
  | none =>
    rw [hentStep_new st eid hl]
    exact ⟨hlen, hnt, hun⟩
  | some exId =>
    rw [hentStep_collision st eid exId hl]
    refine ⟨?_, ?_, ?_⟩
    · rw [List.length_modify]
      exact hlen
    · intro i
      constructor
      · rw [List.getElem?_modify, map_field_modify (fun x =>
            ⟨x.name, x.type, dictUpdate x.properties
              (st.heap.getD eid ⟨"", "", []⟩).properties⟩) (·.name) (fun x => rfl)]
        exact (hnt i).1
      · rw [List.getElem?_modify, map_field_modify (fun x =>
            ⟨x.name, x.type, dictUpdate x.properties
              (st.heap.getD eid ⟨"", "", []⟩).properties⟩) (·.type) (fun x => rfl)]
        exact (hnt i).2
    · intro i hi
      have hne : ¬(exId = i) := by
        intro hc
        exact hi (hc ▸ List.mem_append_right _ (List.mem_singleton_self exId))
      have hnu : i ∉ st.updated := fun hc => hi (List.mem_append_left _ hc)
      rw [List.getElem?_modify, map_id_modify (fun x =>
          ⟨x.name, x.type, dictUpdate x.properties
            (st.heap.getD eid ⟨"", "", []⟩).properties⟩) _ _ hne]
      exact hun i hnu

/-- Counterexample to C10: two fragments referencing distinct entity
objects that share the name `AI`.  The merge writes the later occurrence's
property into the first object in place, so the post-call heap differs
from the input heap: the inputs are not left unchanged. -/
theorem merge_mutates_input_counterexample :
    (mergeHeap [(⟨"AI", "Concept", []⟩ : HEntity String),
        ⟨"AI", "Topic", [("lang", "en")]⟩] [⟨[0], []⟩, ⟨[1], []⟩]).1.heap
      = [⟨"AI", "Concept", [("lang", "en")]⟩, ⟨"AI", "Topic", [("lang", "en")]⟩]
    ∧ (mergeHeap [(⟨"AI", "Concept", []⟩ : HEntity String),
        ⟨"AI", "Topic", [("lang", "en")]⟩] [⟨[0], []⟩, ⟨[1], []⟩]).1.heap
      ≠ [⟨"AI", "Concept", []⟩, ⟨"AI", "Topic", [("lang", "en")]⟩] := by
  constructor
  · decide
  · decide

/-- C10 as amended: the merge is not a pure reduction — on a name
collision it mutates the properties dict of the first-seen entity object
in place — but the mutation is confined: the heap keeps its length, every
entity object keeps its name and type, and every object the loop did not
record as updated (in particular every object when no name recurs) is left
unchanged. -/
theorem merge_heap_mutation_confined (heap : List (HEntity α))
    (frags : List (HFragment α)) :
    (((mergeHeap heap frags).1.heap.length = heap.length))
    ∧ (∀ i : Nat,
        (((mergeHeap heap frags).1.heap[i]?.map (·.name)) = (heap[i]?.map (·.name))
        ∧ ((mergeHeap heap frags).1.heap[i]?.map (·.type)) = (heap[i]?.map (·.type))))
    ∧ (∀ i : Nat, i ∉ (mergeHeap heap frags).1.updated →
        (mergeHeap heap frags).1.heap[i]? = heap[i]?) := by
  have key := foldl_pres (fun s f => f.entityRefs.foldl hentStep s)
    (fun st => (st.heap.length = heap.length)
      ∧ (∀ i : Nat, ((st.heap[i]?.map (·.name)) = (heap[i]?.map (·.name))
          ∧ (st.heap[i]?.map (·.type)) = (heap[i]?.map (·.type))))
      ∧ (∀ i : Nat, i ∉ st.updated → st.heap[i]? = heap[i]?))
    (fun s f hP => foldl_pres hentStep
      (fun st => (st.heap.length = heap.length)
        ∧ (∀ i : Nat, ((st.heap[i]?.map (·.name)) = (heap[i]?.map (·.name))
            ∧ (st.heap[i]?.map (·.type)) = (heap[i]?.map (·.type))))
        ∧ (∀ i : Nat, i ∉ st.updated → st.heap[i]? = heap[i]?))
      (fun s' b hP' => hentStep_inv heap s' b hP'.1 hP'.2.1 hP'.2.2)
      f.entityRefs s hP)
    frags ⟨heap, [], [], []⟩ ⟨rfl, fun _ => ⟨rfl, rfl⟩, fun _ _ => rfl⟩
  exact key

/-- Witness for the amended C10: a single fragment with one entity; the
loop records no update and the object's slot is unchanged. -/
theorem merge_heap_mutation_confined_witness :
    (0 ∉ (mergeHeap [(⟨"A", "T", []⟩ : HEntity String)] [⟨[0], []⟩]).1.updated)
    ∧ (mergeHeap [(⟨"A", "T", []⟩ : HEntity String)] [⟨[0], []⟩]).1.heap[0]?
        = [(⟨"A", "T", []⟩ : HEntity String)][0]? :=
  ⟨by decide,
    (merge_heap_mutation_confined [(⟨"A", "T", []⟩ : HEntity String)] [⟨[0], []⟩]).2.2
      0 (by decide)⟩
